import Mathlib

/-!
Verification of the option-chain metrics core of `app.py`: the chain parser
(`parse_into_dfs`), the top-K-by-volume strike filter, the Put/Call-Ratio
computation (`compute_pcr_oi`) and the Max-Pain computation
(`calculate_max_pain`).  Machine numbers are modelled as `ℤ` (integer counts)
and `ℚ` (prices, strikes, ratios); JSON optionality is modelled with `Option`.
-/

namespace NseApp

/-- One `CE`/`PE` sub-object of a raw option-chain entry.  Every field is
optional, mirroring `dict.get` with a default in `app.py` lines 45-68. -/
structure SideData where
  lastPrice : Option ℚ
  totalTradedVolume : Option ℤ
  openInterest : Option ℤ
  openInterestQty : Option ℤ
  totalBuyQuantity : Option ℤ
  totalSellQuantity : Option ℤ
  deriving DecidableEq, Repr

/-- One per-strike entry of the raw document: a strike price plus optional
call (`CE`) and put (`PE`) sub-objects (`app.py` lines 41-43). -/
structure Entry where
  strikePrice : ℚ
  CE : Option SideData
  PE : Option SideData
  deriving DecidableEq, Repr

/-- The raw JSON document, restricted to the two paths the parser inspects:
`filtered.data` and top-level `data` (`app.py` line 37).  `none` models an
absent path. -/
structure RawDoc where
  filteredData : Option (List Entry)
  data : Option (List Entry)
  deriving DecidableEq, Repr

/-- One row of the calls or puts table built by `parse_into_dfs`
(`app.py` lines 48-69): columns `Strike`, `LTP`, `Volume`, `OI`,
`Total Buy Qty`, `Total Sell Qty` and `Buy/Sell Ratio` (field `buySellRat`;
`none` models the absent ratio / NaN price). -/
structure Row where
  Strike : ℚ
  LTP : Option ℚ
  Volume : ℤ
  OI : ℤ
  totalBuyQty : ℤ
  totalSellQty : ℤ
  buySellRat : Option ℚ
  deriving DecidableEq, Repr

/-- Banker's rounding to an integer (round half to even), the rounding mode of
Python's built-in `round`. -/
def roundHalfEven (q : ℚ) : ℤ :=
  let f := ⌊q⌋
  let r := q - f
  if r < 1/2 then f
  else if 1/2 < r then f + 1
  else if f % 2 = 0 then f else f + 1

/-- Python's `round(x, 2)`: round to two decimal places, half to even. -/
def round2 (q : ℚ) : ℚ := (roundHalfEven (q * 100) : ℚ) / 100

/-- The empty side sub-object: models Python's `{}` produced by
`itm.get("CE", {}) or {}` when a side is missing (`app.py` lines 42-43). -/
def emptySide : SideData := ⟨none, none, none, none, none, none⟩

/-- Open interest of one side:
`ce.get("openInterest", ce.get("openInterestQty", 0)) if ce else 0`
(`app.py` lines 45-46). -/
def oiOf (side : Option SideData) : ℤ :=
  match side with
  | none => 0
  | some sd => sd.openInterest.getD (sd.openInterestQty.getD 0)

/-- The row appended for one side of one entry (`app.py` lines 48-69; the
call and put branches are textually identical up to `CE`/`PE`).  Note the
guard `ce.get("totalSellQuantity", 0) > 0` uses default 0 while the division
`... / ce.get("totalSellQuantity", 1)` uses default 1. -/
def sideRow (strike : ℚ) (side : Option SideData) : Row :=
  let d := side.getD emptySide
  { Strike := strike
    LTP := d.lastPrice
    Volume := d.totalTradedVolume.getD 0
    OI := oiOf side
    totalBuyQty := d.totalBuyQuantity.getD 0
    totalSellQty := d.totalSellQuantity.getD 0
    buySellRat :=
      if d.totalSellQuantity.getD 0 > 0 then
        some (round2 ((d.totalBuyQuantity.getD 0 : ℚ) / (d.totalSellQuantity.getD 1 : ℚ)))
      else none }

/-- `raw_json.get("filtered", {}).get("data") or raw_json.get("data")`
(`app.py` line 37).  Python's `or` falls through on any falsy value, so a
present-but-empty `filtered.data` list also selects the top-level `data`. -/
def selectData (raw : RawDoc) : Option (List Entry) :=
  match raw.filteredData with
  | some l => if l.isEmpty then raw.data else some l
  | none => raw.data

/-- `parse_into_dfs` (`app.py` lines 35-81): select the entry list, return two
empty tables when it is `None`, otherwise emit one call row and one put row
per entry.  The numeric coercion loop (lines 73-80) is the identity on this
well-typed model. -/
def parse_into_dfs (raw : RawDoc) : List Row × List Row :=
  match selectData raw with
  | none => ([], [])
  | some l => (l.map (fun e => sideRow e.strikePrice e.CE),
               l.map (fun e => sideRow e.strikePrice e.PE))

/-- `int(df["OI"].sum())` over a table, with the empty table summing to 0
(`app.py` lines 169-170). -/
def sumOI (l : List Row) : ℤ := (l.map Row.OI).sum

/-- `compute_pcr_oi` (`app.py` lines 168-175): `None` when the calls OI sum is
zero (both zero-branches of the source kept), else `puts_oi / calls_oi`. -/
def compute_pcr_oi (calls puts : List Row) : Option ℚ :=
  let calls_oi := sumOI calls
  let puts_oi := sumOI puts
  if calls_oi = 0 ∧ puts_oi = 0 then none
  else if calls_oi = 0 then none
  else some ((puts_oi : ℚ) / (calls_oi : ℚ))

/-- `sorted(set(df_calls["Strike"]).union(df_puts["Strike"]))`
(`app.py` line 86): the ascending list of the distinct strikes of either
table (insertion sort of the deduplicated concatenation). -/
def strikesUnion (calls puts : List Row) : List ℚ :=
  List.insertionSort (· ≤ ·) ((calls.map Row.Strike ++ puts.map Row.Strike).dedup)

/-- `((np.maximum(df_calls["Strike"] - p, 0)) * df_calls["Volume"]).sum()`
(`app.py` line 89). -/
def call_pain (calls : List Row) (p : ℚ) : ℚ :=
  (calls.map (fun r => max (r.Strike - p) 0 * (r.Volume : ℚ))).sum

/-- `((np.maximum(p - df_puts["Strike"], 0)) * df_puts["Volume"]).sum()`
(`app.py` line 90). -/
def put_pain (puts : List Row) (p : ℚ) : ℚ :=
  (puts.map (fun r => max (p - r.Strike) 0 * (r.Volume : ℚ))).sum

/-- `call_pain + put_pain` for one candidate strike (`app.py` line 91). -/
def totalPain (calls puts : List Row) (p : ℚ) : ℚ :=
  call_pain calls p + put_pain puts p

/-- The `pains` list of `(Strike, Pain)` pairs, one per candidate strike in
ascending order (`app.py` lines 87-91). -/
def painsList (calls puts : List Row) : List (ℚ × ℚ) :=
  (strikesUnion calls puts).map (fun p => (p, totalPain calls puts p))

/-- One step of locating the first row with minimal pain: keep the current
best unless the next pain is strictly smaller. -/
def minStep (best y : ℚ × ℚ) : ℚ × ℚ := if y.2 < best.2 then y else best

/-- `pain_df.loc[pain_df["Pain"].idxmin()]` (`app.py` line 95): the first
pair attaining the minimal second component, `none` on the empty list. -/
def firstMin : List (ℚ × ℚ) → Option (ℚ × ℚ)
  | [] => none
  | x :: xs => some (xs.foldl minStep x)

/-- Python's `int(...)` on a rational: truncation toward zero. -/
def truncQ (q : ℚ) : ℤ := if 0 ≤ q then ⌊q⌋ else ⌈q⌉

/-- `calculate_max_pain` (`app.py` lines 84-96): `(None, None)` when there are
no candidate strikes, otherwise `(int(strike), pain)` for the first row of
minimal pain. -/
def calculate_max_pain (calls puts : List Row) : Option ℤ × Option ℚ :=
  match firstMin (painsList calls puts) with
  | none => (none, none)
  | some (s, pain) => (some (truncQ s), some pain)

/-- `df.nlargest(k, "Volume")` (`app.py` lines 140-141 and 155-156): the first
`k` rows of the stable descending-by-`Volume` sort (pandas `keep="first"`). -/
def nlargestVolume (k : ℕ) (l : List Row) : List Row :=
  (List.insertionSort (fun a b => b.Volume ≤ a.Volume) l).take k

/-- `set(df.nlargest(k, "Volume")["Strike"].tolist())` (`app.py` lines
140-141, 155-156). -/
def topStrikes (k : ℕ) (l : List Row) : Finset ℚ :=
  ((nlargestVolume k l).map Row.Strike).toFinset

/-- The top-K strike union `top_calls_K.union(top_puts_K)` (`app.py` lines
142 and 157), as the set the sorted list is built from. -/
def strikeUnionK (k : ℕ) (calls puts : List Row) : Finset ℚ :=
  topStrikes k calls ∪ topStrikes k puts

/-- A zero-filled row: what `sideRow` emits for a missing side. -/
def zeroRow (strike : ℚ) : Row :=
  { Strike := strike, LTP := none, Volume := 0, OI := 0,
    totalBuyQty := 0, totalSellQty := 0, buySellRat := none }

/-- Row constructor for concrete test inputs: strike, volume, open interest. -/
def mkRow (s : ℚ) (v oi : ℤ) : Row :=
  { Strike := s, LTP := none, Volume := v, OI := oi,
    totalBuyQty := 0, totalSellQty := 0, buySellRat := none }

/-- Calls of the spec's worked scenario. -/
def c3calls : List Row := [mkRow 100 50 200, mkRow 110 30 100]

/-- Puts of the spec's worked scenario. -/
def c3puts : List Row := [mkRow 100 40 150, mkRow 110 60 300]

/-- A raw document whose `filtered.data` path is present but holds an empty
collection, while the top-level `data` path holds one entry. -/
def c4doc : RawDoc := ⟨some [], some [⟨100, none, none⟩]⟩

/-- Calls with the single fractional strike 100.5. -/
def cxCalls : List Row := [mkRow (201/2) 50 0]

/-- Puts with the single fractional strike 100.5. -/
def cxPuts : List Row := [mkRow (201/2) 40 0]

/-- Calls with the single fractional strike 102.5. -/
def c9calls : List Row := [mkRow (205/2) 10 0]

/-- Puts with the single fractional strike 102.5. -/
def c9puts : List Row := [mkRow (205/2) 20 0]

/-- A raw document with two entries: strike 100 carries only a call side,
strike 110 carries only a put side. -/
def c8doc : RawDoc :=
  ⟨none, some [⟨100, some ⟨some 5, some 7, some 20, none, some 6, some 4⟩, none⟩,
               ⟨110, none, some ⟨some 3, some 9, none, some 30, some 8, some 2⟩⟩]⟩

theorem minStep_snd_le_left (x z : ℚ × ℚ) : (minStep x z).2 ≤ x.2 := by
  unfold minStep; split
  · exact le_of_lt (by assumption)
  · exact le_refl _

theorem minStep_snd_le_right (x z : ℚ × ℚ) : (minStep x z).2 ≤ z.2 := by
  unfold minStep; split
  · exact le_refl _
  · exact le_of_not_lt (by assumption)

theorem minStep_eq_or (x z : ℚ × ℚ) : minStep x z = x ∨ minStep x z = z := by
  unfold minStep; split
  · exact Or.inr rfl
  · exact Or.inl rfl

theorem foldl_minStep_snd_le (xs : List (ℚ × ℚ)) :
    ∀ x : ℚ × ℚ, (xs.foldl minStep x).2 ≤ x.2 ∧ ∀ y ∈ xs, (xs.foldl minStep x).2 ≤ y.2 := by
  induction xs with
  | nil => intro x; exact ⟨le_refl _, by simp⟩
  | cons z zs ih =>
    intro x
    simp only [List.foldl_cons, List.mem_cons]
    refine ⟨(ih (minStep x z)).1.trans (minStep_snd_le_left x z), ?_⟩
    rintro y (rfl | hy)
    · exact (ih (minStep x y)).1.trans (minStep_snd_le_right x y)
    · exact (ih (minStep x z)).2 y hy

theorem foldl_minStep_mem (xs : List (ℚ × ℚ)) :
    ∀ x : ℚ × ℚ, xs.foldl minStep x = x ∨ xs.foldl minStep x ∈ xs := by
  induction xs with
  | nil => intro x; exact Or.inl rfl
  | cons z zs ih =>
    intro x
    simp only [List.foldl_cons, List.mem_cons]
    rcases ih (minStep x z) with h | h
    · rcases minStep_eq_or x z with h2 | h2
      · exact Or.inl (h.trans h2)
      · exact Or.inr (Or.inl (h.trans h2))
    · exact Or.inr (Or.inr h)

theorem foldl_minStep_eq_self (xs : List (ℚ × ℚ)) :
    ∀ x : ℚ × ℚ, (xs.foldl minStep x).2 = x.2 → xs.foldl minStep x = x := by
  induction xs with
  | nil => intro x _; rfl
  | cons z zs ih =>
    intro x h
    simp only [List.foldl_cons] at h ⊢
    by_cases hz : z.2 < x.2
    · exfalso
      have hmz : minStep x z = z := by unfold minStep; simp [hz]
      rw [hmz] at h
      have hle := (foldl_minStep_snd_le zs z).1
      rw [h] at hle
      exact absurd (lt_of_le_of_lt hle hz) (lt_irrefl _)
    · have hmx : minStep x z = x := by unfold minStep; simp [hz]
      rw [hmx] at h ⊢
      exact ih x h

theorem foldl_minStep_tiebreak (xs : List (ℚ × ℚ)) :
    ∀ x : ℚ × ℚ, (x :: xs).Pairwise (fun a b => a.1 < b.1) →
      ∀ y ∈ x :: xs, y.2 = (xs.foldl minStep x).2 → (xs.foldl minStep x).1 ≤ y.1 := by
  induction xs with
  | nil =>
    intro x _ y hy _
    simp only [List.mem_singleton] at hy
    subst hy
    exact le_refl _
  | cons z zs ih =>
    intro x hpair y hy hyeq
    simp only [List.foldl_cons] at hyeq ⊢
    have hx_all : ∀ a ∈ z :: zs, x.1 < a.1 := (List.pairwise_cons.mp hpair).1
    have hrest : (z :: zs).Pairwise (fun a b => a.1 < b.1) := (List.pairwise_cons.mp hpair).2
    have hzs : zs.Pairwise (fun a b => a.1 < b.1) := (List.pairwise_cons.mp hrest).2
    have hpair' : (minStep x z :: zs).Pairwise (fun a b => a.1 < b.1) := by
      rcases minStep_eq_or x z with h2 | h2 <;> rw [h2]
      · exact List.pairwise_cons.mpr
          ⟨fun a ha => hx_all a (List.mem_cons_of_mem z ha), hzs⟩
      · exact hrest
    have hIH := ih (minStep x z) hpair'
    simp only [List.mem_cons] at hy
    by_cases hzx : z.2 < x.2
    · have hmz : minStep x z = z := by unfold minStep; simp [hzx]
      rw [hmz] at hyeq hIH ⊢
      rcases hy with rfl | rfl | hy
      · exfalso
        have hle := (foldl_minStep_snd_le zs z).1
        rw [← hyeq] at hle
        exact absurd (lt_of_le_of_lt hle hzx) (lt_irrefl _)
      · exact hIH y (List.mem_cons_self _ _) hyeq
      · exact hIH y (List.mem_cons_of_mem _ hy) hyeq
    · have hmx : minStep x z = x := by unfold minStep; simp [hzx]
      rw [hmx] at hyeq hIH ⊢
      rcases hy with rfl | rfl | hy
      · exact hIH y (List.mem_cons_self _ _) hyeq
      · have hle := (foldl_minStep_snd_le zs x).1
        have hxy : x.2 ≤ y.2 := le_of_not_lt hzx
        have heq : (zs.foldl minStep x).2 = x.2 :=
          le_antisymm hle (hxy.trans (le_of_eq hyeq))
        have hfix := foldl_minStep_eq_self zs x heq
        rw [hfix]
        exact le_of_lt (hx_all y (List.mem_cons_self _ _))
      · exact hIH y (List.mem_cons_of_mem _ hy) hyeq

theorem firstMin_spec (l : List (ℚ × ℚ)) (hl : l ≠ [])
    (hpair : l.Pairwise (fun a b => a.1 < b.1)) :
    ∃ b, firstMin l = some b ∧ b ∈ l ∧ (∀ y ∈ l, b.2 ≤ y.2) ∧
      (∀ y ∈ l, y.2 = b.2 → b.1 ≤ y.1) := by
  match l, hl with
  | x :: xs, _ =>
    refine ⟨xs.foldl minStep x, rfl, ?_, ?_, ?_⟩
    · rcases foldl_minStep_mem xs x with h | h
      · rw [h]; exact List.mem_cons_self _ _
      · exact List.mem_cons_of_mem _ h
    · rintro y hy
      rcases List.mem_cons.mp hy with rfl | hy
      · exact (foldl_minStep_snd_le xs y).1
      · exact (foldl_minStep_snd_le xs x).2 y hy
    · exact fun y hy hyeq => foldl_minStep_tiebreak xs x hpair y hy hyeq

theorem strikesUnion_sorted (calls puts : List Row) :
    (strikesUnion calls puts).Sorted (· ≤ ·) :=
  List.sorted_insertionSort _ _

theorem strikesUnion_nodup (calls puts : List Row) :
    (strikesUnion calls puts).Nodup :=
  ((List.perm_insertionSort _ _).nodup_iff).mpr (List.nodup_dedup _)

theorem strikesUnion_pairwise (calls puts : List Row) :
    (strikesUnion calls puts).Pairwise (· < ·) :=
  ((strikesUnion_sorted calls puts).and (strikesUnion_nodup calls puts)).imp
    (fun h => lt_of_le_of_ne h.1 h.2)

theorem mem_strikesUnion {calls puts : List Row} {q : ℚ} :
    q ∈ strikesUnion calls puts ↔
      q ∈ calls.map Row.Strike ∨ q ∈ puts.map Row.Strike := by
  unfold strikesUnion
  rw [List.mem_insertionSort, List.mem_dedup, List.mem_append]

theorem strikesUnion_ne_nil (calls puts : List Row) (h : calls ≠ []) :
    strikesUnion calls puts ≠ [] := by
  match calls, h with
  | r :: rest, _ =>
    intro hnil
    have hmem : r.Strike ∈ strikesUnion (r :: rest) puts :=
      mem_strikesUnion.mpr (Or.inl (by simp))
    rw [hnil] at hmem
    exact absurd hmem (List.not_mem_nil _)

theorem painsList_pairwise (calls puts : List Row) :
    (painsList calls puts).Pairwise (fun a b => a.1 < b.1) := by
  unfold painsList
  rw [List.pairwise_map]
  exact strikesUnion_pairwise calls puts

theorem calculate_max_pain_spec (calls puts : List Row)
    (h : strikesUnion calls puts ≠ []) :
    ∃ s, s ∈ strikesUnion calls puts ∧
      calculate_max_pain calls puts =
        (some (truncQ s), some (totalPain calls puts s)) ∧
      (∀ q ∈ strikesUnion calls puts,
        totalPain calls puts s ≤ totalPain calls puts q) ∧
      (∀ q ∈ strikesUnion calls puts,
        totalPain calls puts q = totalPain calls puts s → s ≤ q) := by
  have hpl : painsList calls puts ≠ [] := by
    unfold painsList
    simpa using h
  obtain ⟨b, hfm, hbmem, hmin, htie⟩ :=
    firstMin_spec (painsList calls puts) hpl (painsList_pairwise calls puts)
  obtain ⟨s, hs, hsb⟩ := List.mem_map.mp hbmem
  subst hsb
  refine ⟨s, hs, ?_, ?_, ?_⟩
  · unfold calculate_max_pain
    rw [hfm]
  · intro q hq
    exact hmin (q, totalPain calls puts q) (List.mem_map_of_mem _ hq)
  · intro q hq hpq
    exact htie (q, totalPain calls puts q) (List.mem_map_of_mem _ hq) hpq

/-- C1: `compute_pcr_oi` returns `none` ("unavailable") exactly when the calls
open-interest sum is zero (including when both sums are zero); otherwise it
returns `sumPuts / sumCalls`, and whenever both sums are positive the returned
value is strictly positive. -/
theorem compute_pcr_oi_claim (calls puts : List Row) :
    (compute_pcr_oi calls puts = none ↔ sumOI calls = 0) ∧
    (sumOI calls ≠ 0 →
      compute_pcr_oi calls puts = some ((sumOI puts : ℚ) / (sumOI calls : ℚ))) ∧
    (0 < sumOI calls → 0 < sumOI puts →
      ∃ r, compute_pcr_oi calls puts = some r ∧ 0 < r) := by
  by_cases hc : sumOI calls = 0
  · have hnone : compute_pcr_oi calls puts = none := by
      unfold compute_pcr_oi
      by_cases hp : sumOI puts = 0 <;> simp [hc, hp]
    exact ⟨⟨fun _ => hc, fun _ => hnone⟩, fun hne => absurd hc hne,
      fun hpos _ => absurd hc hpos.ne'⟩
  · have hsome : compute_pcr_oi calls puts =
        some ((sumOI puts : ℚ) / (sumOI calls : ℚ)) := by
      unfold compute_pcr_oi
      simp [hc]
    refine ⟨⟨fun h => ?_, fun h => absurd h hc⟩, fun _ => hsome, fun hpc hpp => ?_⟩
    · rw [hsome] at h
      exact absurd h (Option.some_ne_none _)
    · exact ⟨_, hsome, div_pos (by exact_mod_cast hpp) (by exact_mod_cast hpc)⟩

/-- Witness for C1 at the concrete input with calls OI sum 300 and puts OI
sum 450: the PCR is `450 / 300` and it is positive. -/
theorem compute_pcr_oi_claim_witness :
    compute_pcr_oi [mkRow 100 10 300] [mkRow 100 10 450] =
      some ((sumOI [mkRow 100 10 450] : ℚ) / (sumOI [mkRow 100 10 300] : ℚ)) ∧
    ∃ r, compute_pcr_oi [mkRow 100 10 300] [mkRow 100 10 450] = some r ∧ 0 < r := by
  have h := compute_pcr_oi_claim [mkRow 100 10 300] [mkRow 100 10 450]
  exact ⟨h.2.1 (by norm_num [sumOI, mkRow]),
    h.2.2 (by norm_num [sumOI, mkRow]) (by norm_num [sumOI, mkRow])⟩

/-- C10: when the calls OI sum is positive and the puts OI sum is zero,
`compute_pcr_oi` returns the numeric value `0`, not `none`: `none` is produced
only for a zero calls sum, never for a zero puts sum alone. -/
theorem pcr_zero_puts_claim (calls puts : List Row)
    (h1 : 0 < sumOI calls) (h2 : sumOI puts = 0) :
    compute_pcr_oi calls puts = some 0 ∧ compute_pcr_oi calls puts ≠ none := by
  have hc : sumOI calls ≠ 0 := h1.ne'
  have hsome : compute_pcr_oi calls puts =
      some ((sumOI puts : ℚ) / (sumOI calls : ℚ)) := by
    unfold compute_pcr_oi
    simp [hc]
  rw [h2] at hsome
  norm_num at hsome
  exact ⟨hsome, by rw [hsome]; exact Option.some_ne_none _⟩

/-- Witness for C10: calls with OI 5, puts with OI 0 yield PCR `0`. -/
theorem pcr_zero_puts_claim_witness :
    compute_pcr_oi [mkRow 100 0 5] [mkRow 100 0 0] = some 0 ∧
    compute_pcr_oi [mkRow 100 0 5] [mkRow 100 0 0] ≠ none :=
  pcr_zero_puts_claim [mkRow 100 0 5] [mkRow 100 0 0]
    (by norm_num [sumOI, mkRow]) (by norm_num [sumOI, mkRow])

/-- C6: when both input collections are empty (so the candidate-strike union
is empty), `calculate_max_pain` returns `(None, None)` as a normal result. -/
theorem max_pain_empty_claim (calls puts : List Row)
    (hc : calls = []) (hp : puts = []) :
    calculate_max_pain calls puts = (none, none) := by
  subst hc
  subst hp
  rfl

/-- Witness for C6 at the empty pair. -/
theorem max_pain_empty_claim_witness :
    calculate_max_pain [] [] = (none, none) :=
  max_pain_empty_claim [] [] rfl rfl

/-- C5: the Buy/Sell Ratio field of a parsed row equals
`totalBuyQuantity / totalSellQuantity` rounded to 2 decimal places when
`totalSellQuantity > 0`, and is absent (`none`) — never computed by a division
by zero — whenever `totalSellQuantity` is zero, the sell-quantity field is
missing, or the whole side sub-object is missing. -/
theorem buy_sell_ratio_claim (strike : ℚ) (side : Option SideData) :
    ((sideRow strike side).totalSellQty > 0 →
      (sideRow strike side).buySellRat =
        some (round2 (((sideRow strike side).totalBuyQty : ℚ) /
          ((sideRow strike side).totalSellQty : ℚ)))) ∧
    ((sideRow strike side).totalSellQty = 0 → (sideRow strike side).buySellRat = none) ∧
    (side = none → (sideRow strike side).buySellRat = none) ∧
    (∀ sd, side = some sd → sd.totalSellQuantity = none →
      (sideRow strike side).buySellRat = none) := by
  cases side with
  | none =>
    refine ⟨?_, fun _ => rfl, fun _ => rfl, ?_⟩
    · intro h
      exact absurd h (by norm_num [sideRow, emptySide])
    · intro sd hsd
      exact absurd hsd (by simp)
  | some sd =>
    cases hq : sd.totalSellQuantity with
    | none =>
      refine ⟨?_, fun _ => ?_, fun h => ?_, fun sd2 hsd2 _ => ?_⟩
      · intro h
        exact absurd h (by norm_num [sideRow, emptySide, hq])
      · simp [sideRow, emptySide, hq]
      · exact absurd h (by simp)
      · simp [sideRow, emptySide, hq]
    | some v =>
      refine ⟨?_, ?_, fun h => ?_, fun sd2 hsd2 hn => ?_⟩
      · intro h
        have hv : 0 < v := by
          simpa [sideRow, emptySide, hq] using h
        simp [sideRow, emptySide, hq, hv]
      · intro h
        have hv : v = 0 := by
          simpa [sideRow, emptySide, hq] using h
        simp [sideRow, emptySide, hq, hv]
      · exact absurd h (by simp)
      · have heq : sd = sd2 := Option.some_inj.mp hsd2
        rw [← heq, hq] at hn
        exact absurd hn (by simp)

/-- Witness for C5: buy quantity 6 and sell quantity 4 give the ratio
`round(6/4, 2) = 1.5`; with sell quantity 0 the field is absent. -/
theorem buy_sell_ratio_claim_witness :
    (sideRow 100 (some ⟨none, none, none, none, some 6, some 4⟩)).buySellRat =
      some (3/2) ∧
    (sideRow 100 (some ⟨none, none, none, none, some 6, some 0⟩)).buySellRat = none := by
  constructor
  · have h := (buy_sell_ratio_claim 100
      (some ⟨none, none, none, none, some 6, some 4⟩)).1 (by decide)
    rw [h]
    norm_num [sideRow, emptySide, round2, roundHalfEven]
  · exact (buy_sell_ratio_claim 100
      (some ⟨none, none, none, none, some 6, some 0⟩)).2.1 (by decide)

/-- Counterexample for C4: on `c4doc`, the `filtered.data` path is present
(holding the empty collection), yet the parser does not select it — parsing
from it would give two empty collections, but the code falls through to the
top-level `data` path and emits one row per side. -/
theorem parser_priority_counterexample :
    c4doc.filteredData = some [] ∧
    parse_into_dfs c4doc ≠ ([], []) ∧
    parse_into_dfs c4doc = ([sideRow 100 none], [sideRow 100 none]) := by
  refine ⟨rfl, ?_, by decide⟩
  decide

/-- C4 (amended): the parser selects `filtered.data` only when that path is
present AND non-empty (Python truthiness); otherwise it falls back to the
top-level `data` path; when that fallback is also absent it returns two empty
collections rather than raising an error. -/
theorem parser_priority_amended (raw : RawDoc) :
    (∀ l, raw.filteredData = some l → l ≠ [] →
      parse_into_dfs raw = (l.map (fun e => sideRow e.strikePrice e.CE),
                            l.map (fun e => sideRow e.strikePrice e.PE))) ∧
    ((raw.filteredData = none ∨ raw.filteredData = some []) →
      ∀ l, raw.data = some l →
        parse_into_dfs raw = (l.map (fun e => sideRow e.strikePrice e.CE),
                              l.map (fun e => sideRow e.strikePrice e.PE))) ∧
    ((raw.filteredData = none ∨ raw.filteredData = some []) → raw.data = none →
      parse_into_dfs raw = ([], [])) := by
  refine ⟨?_, ?_, ?_⟩
  · intro l hf hne
    unfold parse_into_dfs selectData
    rw [hf]
    simp [hne]
  · rintro (hf | hf) l hd <;>
      unfold parse_into_dfs selectData <;> rw [hf] <;> simp [hd]
  · rintro (hf | hf) hd <;>
      unfold parse_into_dfs selectData <;> rw [hf] <;> simp [hd]

/-- Witness for C4 (amended), one instance per branch: a non-empty
`filtered.data` is selected; an empty `filtered.data` with absent `data`
yields two empty collections. -/
theorem parser_priority_amended_witness :
    parse_into_dfs ⟨some [⟨100, none, none⟩], none⟩ =
      (([⟨100, none, none⟩] : List Entry).map (fun e => sideRow e.strikePrice e.CE),
       ([⟨100, none, none⟩] : List Entry).map (fun e => sideRow e.strikePrice e.PE)) ∧
    parse_into_dfs ⟨some [], none⟩ = ([], []) := by
  constructor
  · exact (parser_priority_amended ⟨some [⟨100, none, none⟩], none⟩).1
      [⟨100, none, none⟩] rfl (by decide)
  · exact (parser_priority_amended ⟨some [], none⟩).2.2 (Or.inr rfl) rfl

/-- C8: for every raw document with a recognized entry collection, the parser
emits one record per entry on both sides — zero-filled (price and ratio
absent) when that side's sub-object is missing — so the calls and puts tables
have equal length and identical strike sequences. -/
theorem parse_alignment_claim (raw : RawDoc) (l : List Entry)
    (h : selectData raw = some l) :
    (parse_into_dfs raw).1.length = l.length ∧
    (parse_into_dfs raw).2.length = l.length ∧
    (parse_into_dfs raw).1.map Row.Strike = l.map Entry.strikePrice ∧
    (parse_into_dfs raw).2.map Row.Strike = l.map Entry.strikePrice ∧
    (∀ e ∈ l, e.CE = none → sideRow e.strikePrice e.CE = zeroRow e.strikePrice) ∧
    (∀ e ∈ l, e.PE = none → sideRow e.strikePrice e.PE = zeroRow e.strikePrice) := by
  have hp : parse_into_dfs raw =
      (l.map (fun e => sideRow e.strikePrice e.CE),
       l.map (fun e => sideRow e.strikePrice e.PE)) := by
    unfold parse_into_dfs
    rw [h]
  rw [hp]
  refine ⟨by simp, by simp, by simp [sideRow], by simp [sideRow], ?_, ?_⟩
  · intro e _ hce
    rw [hce]
    rfl
  · intro e _ hpe
    rw [hpe]
    rfl

/-- Witness for C8 on `c8doc`: two entries, each missing one side, still give
aligned strike sequences on both tables. -/
theorem parse_alignment_claim_witness :
    (parse_into_dfs c8doc).1.map Row.Strike = [100, 110] ∧
    (parse_into_dfs c8doc).2.map Row.Strike = [100, 110] := by
  have h := parse_alignment_claim c8doc
    [⟨100, some ⟨some 5, some 7, some 20, none, some 6, some 4⟩, none⟩,
     ⟨110, none, some ⟨some 3, some 9, none, some 30, some 8, some 2⟩⟩] rfl
  exact ⟨h.2.2.1.trans (by decide), h.2.2.2.1.trans (by decide)⟩

/-- Counterexample for C2: on `cxCalls`/`cxPuts` the sole candidate strike —
hence the minimizing strike — is 100.5, but `calculate_max_pain` returns
strike 100, which is not the minimizing candidate strike. -/
theorem max_pain_strike_counterexample :
    strikesUnion cxCalls cxPuts = [201/2] ∧
    calculate_max_pain cxCalls cxPuts = (some 100, some 0) ∧
    ((100 : ℚ) ≠ 201/2) := by
  refine ⟨?_, ?_, by norm_num⟩
  · norm_num [strikesUnion, cxCalls, cxPuts, mkRow, List.dedup,
      List.insertionSort, List.orderedInsert]
  · norm_num [calculate_max_pain, painsList, strikesUnion, totalPain, call_pain,
      put_pain, firstMin, minStep, truncQ, cxCalls, cxPuts, mkRow, List.dedup,
      List.insertionSort, List.orderedInsert]

/-- C2 (amended): for every pair of non-empty collections,
`calculate_max_pain` computes, per candidate strike `p` of the
ascending-sorted union, `callPain(p) + putPain(p)` and returns the INTEGER
TRUNCATION of the strike minimizing total pain together with that pain, ties
resolved to the first (lowest) minimizing strike in ascending order. -/
theorem max_pain_claim_amended (calls puts : List Row)
    (hc : calls ≠ []) (_hp : puts ≠ []) :
    ∃ s, s ∈ strikesUnion calls puts ∧
      calculate_max_pain calls puts =
        (some (truncQ s), some (totalPain calls puts s)) ∧
      (∀ q ∈ strikesUnion calls puts,
        totalPain calls puts s ≤ totalPain calls puts q) ∧
      (∀ q ∈ strikesUnion calls puts,
        totalPain calls puts q = totalPain calls puts s → s ≤ q) :=
  calculate_max_pain_spec calls puts (strikesUnion_ne_nil calls puts hc)

/-- Witness for C2 (amended) on the worked scenario rows. -/
theorem max_pain_claim_amended_witness :
    ∃ s, s ∈ strikesUnion c3calls c3puts ∧
      calculate_max_pain c3calls c3puts =
        (some (truncQ s), some (totalPain c3calls c3puts s)) ∧
      (∀ q ∈ strikesUnion c3calls c3puts,
        totalPain c3calls c3puts s ≤ totalPain c3calls c3puts q) ∧
      (∀ q ∈ strikesUnion c3calls c3puts,
        totalPain c3calls c3puts q = totalPain c3calls c3puts s → s ≤ q) :=
  max_pain_claim_amended c3calls c3puts (by simp [c3calls]) (by simp [c3puts])

/-- C9: for every non-empty input pair, the strike returned by
`calculate_max_pain` is the integer truncation (toward zero, Python `int`) of
the minimizing candidate strike; when that strike is fractional the returned
value is not the candidate strike itself. -/
theorem max_pain_trunc_claim (calls puts : List Row)
    (hc : calls ≠ []) (_hp : puts ≠ []) :
    ∃ s, s ∈ strikesUnion calls puts ∧
      (∀ q ∈ strikesUnion calls puts,
        totalPain calls puts s ≤ totalPain calls puts q) ∧
      (calculate_max_pain calls puts).1 = some (truncQ s) ∧
      (s.den ≠ 1 → ((truncQ s : ℚ) ≠ s)) := by
  obtain ⟨s, hs, heq, hmin, _⟩ :=
    calculate_max_pain_spec calls puts (strikesUnion_ne_nil calls puts hc)
  refine ⟨s, hs, hmin, by rw [heq], ?_⟩
  intro hden habs
  apply hden
  rw [← habs]
  exact Rat.den_intCast _

/-- Witness for C9 on the fractional strike 102.5: the returned strike is its
truncation and differs from the candidate. -/
theorem max_pain_trunc_claim_witness :
    ∃ s, s ∈ strikesUnion c9calls c9puts ∧
      (∀ q ∈ strikesUnion c9calls c9puts,
        totalPain c9calls c9puts s ≤ totalPain c9calls c9puts q) ∧
      (calculate_max_pain c9calls c9puts).1 = some (truncQ s) ∧
      (s.den ≠ 1 → ((truncQ s : ℚ) ≠ s)) :=
  max_pain_trunc_claim c9calls c9puts (by simp [c9calls]) (by simp [c9puts])

/-- C3: on the spec's worked scenario (calls 100/vol 50/OI 200 and
110/vol 30/OI 100; puts 100/vol 40/OI 150 and 110/vol 60/OI 300) the OI-basis
PCR is exactly 1.5 and Max Pain is strike 100 with total pain 300. -/
theorem scenario_claim :
    compute_pcr_oi c3calls c3puts = some (3/2) ∧
    calculate_max_pain c3calls c3puts = (some 100, some 300) := by
  constructor
  · norm_num [compute_pcr_oi, sumOI, c3calls, c3puts, mkRow]
  · norm_num [calculate_max_pain, painsList, strikesUnion, totalPain, call_pain,
      put_pain, firstMin, minStep, truncQ, c3calls, c3puts, mkRow, List.dedup,
      List.insertionSort, List.orderedInsert]

theorem topStrikes_mono {k1 k2 : ℕ} (h : k1 ≤ k2) (l : List Row) :
    topStrikes k1 l ⊆ topStrikes k2 l := by
  intro a ha
  unfold topStrikes at ha ⊢
  rw [List.mem_toFinset] at ha ⊢
  obtain ⟨r, hr, hra⟩ := List.mem_map.mp ha
  refine List.mem_map.mpr ⟨r, ?_, hra⟩
  unfold nlargestVolume at hr ⊢
  have htt := List.take_take k1 k2 (List.insertionSort (fun a b => b.Volume ≤ a.Volume) l)
  rw [Nat.min_eq_left h] at htt
  rw [← htt] at hr
  exact (List.take_prefix k1 _).sublist.subset hr

/-- C7: top-K filtering is monotonic in K: for every snapshot the strike union
for K = 20 is a superset of the strike union for K = 10. -/
theorem topk_monotone_claim (calls puts : List Row) :
    strikeUnionK 10 calls puts ⊆ strikeUnionK 20 calls puts :=
  Finset.union_subset_union (topStrikes_mono (by norm_num) calls)
    (topStrikes_mono (by norm_num) puts)

/-- Witness for C7: strike 100 of the top-10 union also lies in the top-20
union. -/
theorem topk_monotone_claim_witness :
    (100 : ℚ) ∈ strikeUnionK 20 [mkRow 100 5 0] [] :=
  topk_monotone_claim [mkRow 100 5 0] [] (by decide)

end NseApp
